import Mathlib

/-
Verification development for the APK string-resource extraction pipeline
(`export_apk_strings/apk_string_extractor_local.py` and
`export_apk_strings/apk_string_extractor_simple.py`).

The Python functions are shallowly embedded as executable Lean definitions
over `List Char` / `String` / association lists.  Python dicts are modelled
as association lists with unique keys (`assocSet` updates in place, so the
first binding found by lookup is the current one); Python sets of locale
tags are modelled as duplicate-free lists built by `addLanguage`, consumed
only through membership and sorting, exactly as the source consumes them.

The external `xml.etree.ElementTree` parser is not re-implemented: a resource
file is modelled as its raw bytes together with the element tree the library
would return on each of the two parse attempts the source makes (`RawFile`).
All logic of the source itself (magic-byte detection, tree walking,
unescaping, placeholder analysis, reconciliation, projection) is embedded.
-/

namespace Apk

/-- Apostrophe character, kept out of string literals. -/
def apos : Char := Char.ofNat 39

/-- Whitespace characters stripped by Python `str.strip()` / matched by
regex `\s` (ASCII range, which covers all inputs handled here). -/
def isPySpace (c : Char) : Bool :=
  c = ' ' || c = '\t' || c = '\n' || c = '\r' || c = '\x0b' || c = '\x0c'

/-- Python `str.strip()`: drop leading and trailing whitespace. -/
def pyStrip (l : List Char) : List Char :=
  ((l.dropWhile isPySpace).reverse.dropWhile isPySpace).reverse

/-- `pat` is a prefix of `l` (generic, decidable-equality version). -/
def listStartsWith {α : Type} [DecidableEq α] : List α → List α → Bool
  | [], _ => true
  | _ :: _, [] => false
  | p :: ps, c :: cs => p = c && listStartsWith ps cs

/-- Python `pat in s`: substring containment. -/
def containsSub (pat : List Char) : List Char → Bool
  | [] => listStartsWith pat []
  | c :: cs => listStartsWith pat (c :: cs) || containsSub pat cs

/-- Fueled worker for `replaceAll`; the fuel is the length of the scanned
list, which suffices because every step consumes at least one character. -/
def replaceAllAux (pat rep : List Char) : Nat → List Char → List Char
  | 0, l => l
  | _ + 1, [] => []
  | fuel + 1, c :: cs =>
    if pat ≠ [] && listStartsWith pat (c :: cs) then
      rep ++ replaceAllAux pat rep fuel ((c :: cs).drop pat.length)
    else
      c :: replaceAllAux pat rep fuel cs

/-- Python `str.replace(pat, rep)`: replace every non-overlapping occurrence,
scanning left to right. -/
def replaceAll (pat rep l : List Char) : List Char :=
  replaceAllAux pat rep l.length l

/-- `APKStringExtractor._unescape_xml` (identical in both source files):
decode the five XML entities, then the five platform escapes, in the
source's textual order, and strip the result. -/
def unescape_xml (text : String) : String :=
  if text = "" then ""
  else
    let t := text.data
    let t := replaceAll "&lt;".data "<".data t
    let t := replaceAll "&gt;".data ">".data t
    let t := replaceAll "&amp;".data "&".data t
    let t := replaceAll "&quot;".data "\"".data t
    let t := replaceAll "&apos;".data [apos] t
    let t := replaceAll ['\\', '"'] ['"'] t
    let t := replaceAll ['\\', apos] [apos] t
    let t := replaceAll ['\\', 'n'] ['\n'] t
    let t := replaceAll ['\\', 't'] ['\t'] t
    let t := replaceAll ['\\', '\\'] ['\\'] t
    String.mk (pyStrip t)

/-- Match of the regex `%(\d+)\$[sd]` anchored at the head of the list:
returns the matched token and the remainder after it. -/
def matchNumbered : List Char → Option (List Char × List Char)
  | '%' :: rest =>
    let ds := rest.takeWhile (fun c => c.isDigit)
    if ds = [] then none
    else
      match rest.dropWhile (fun c => c.isDigit) with
      | '$' :: c :: rest2 =>
        if c = 's' || c = 'd' then some ('%' :: ds ++ ['$', c], rest2) else none
      | _ => none
  | _ => none

/-- Match of the regex `%[sd](?![0-9])` anchored at the head of the list
(the lookahead consumes nothing). -/
def matchSimple : List Char → Option (List Char × List Char)
  | '%' :: c :: rest =>
    if c = 's' || c = 'd' then
      match rest with
      | [] => some (['%', c], [])
      | d :: _ => if d.isDigit then none else some (['%', c], rest)
    else none
  | _ => none

/-- `re.finditer` scan for the numbered pattern: on a match, continue after
the matched text; otherwise advance one character.  Fuel = list length. -/
def scanNumberedAux : Nat → List Char → List (List Char)
  | 0, _ => []
  | _ + 1, [] => []
  | fuel + 1, c :: cs =>
    match matchNumbered (c :: cs) with
    | some (tok, rest) => tok :: scanNumberedAux fuel rest
    | none => scanNumberedAux fuel cs

def scanNumbered (l : List Char) : List (List Char) :=
  scanNumberedAux l.length l

/-- `re.finditer` scan for the simple pattern. -/
def scanSimpleAux : Nat → List Char → List (List Char)
  | 0, _ => []
  | _ + 1, [] => []
  | fuel + 1, c :: cs =>
    match matchSimple (c :: cs) with
    | some (tok, rest) => tok :: scanSimpleAux fuel rest
    | none => scanSimpleAux fuel cs

def scanSimple (l : List Char) : List (List Char) :=
  scanSimpleAux l.length l

/-- `APKStringExtractor._extract_placeholders` (local version): all numbered
placeholders in document order, then all simple placeholders in document
order. -/
def extract_placeholders (text : String) : List (List Char) :=
  if text = "" then [] else scanNumbered text.data ++ scanSimple text.data

/-- Inner `normalize_to_types` of `_compare_placeholders`: reduce each
placeholder to its trailing type letter, dropping anything else. -/
def normalize_to_types (phs : List (List Char)) : List Char :=
  phs.filterMap (fun ph =>
    match ph.getLast? with
    | some 's' => some 's'
    | some 'd' => some 'd'
    | _ => none)

/-- `APKStringExtractor._compare_placeholders`: equality of the two `Counter`
values is multiset equality of the normalized type lists; the empty-text
guard compares the raw texts. -/
def comparePlaceholders (defaultText otherText : String) : Bool :=
  if defaultText = "" ∨ otherText = "" then defaultText == otherText
  else
    decide ((↑(normalize_to_types (extract_placeholders defaultText)) : Multiset Char) =
      ↑(normalize_to_types (extract_placeholders otherText)))

/-- Python `dict.get(k, "")` on an association list. -/
def assocGet (m : List (String × String)) (k : String) : String :=
  ((m.find? (fun p => p.1 == k)).map Prod.snd).getD ""

/-- Python `m[k] = v` on an association list: update the existing binding in
place or append a new one, keeping keys unique. -/
def assocSet (m : List (String × String)) (k v : String) : List (String × String) :=
  match m with
  | [] => [(k, v)]
  | (k', v') :: rest => if k' = k then (k, v) :: rest else (k', v') :: assocSet rest k v

/-- `APKStringExtractor._get_placeholder_anomaly_languages`: the baseline is
`languages[0]`; a later locale is flagged iff its text is non-empty and the
placeholder comparison against the baseline fails. -/
def getPlaceholderAnomalyLanguages (translations : List (String × String))
    (languages : List String) : List String :=
  if translations = [] ∨ languages.length ≤ 1 then []
  else
    match languages with
    | [] => []
    | defaultLang :: restLangs =>
      let defaultText := assocGet translations defaultLang
      if defaultText = "" then []
      else
        restLangs.filter (fun lang =>
          let otherText := assocGet translations lang
          (otherText != "") && !(comparePlaceholders defaultText otherText))

/-- Missing-translation counter of `create_dataframe` (both versions): the
loop increments once for every projected locale whose text is empty. -/
def missingCountOf (translations : List (String × String)) (languages : List String) : Nat :=
  languages.foldl (fun acc lang => if assocGet translations lang = "" then acc + 1 else acc) 0

/-- Lexicographic order on code points, as Python string comparison. -/
def charListLe : List Char → List Char → Bool
  | [], _ => true
  | _ :: _, [] => false
  | a :: as, b :: bs => if a = b then charListLe as bs else decide (a < b)

def pyStrLe (a b : String) : Prop := charListLe a.data b.data = true

instance : DecidableRel pyStrLe := fun a b => instDecidableEqBool _ _

/-- Python `sorted` over a set of locale tags: sort the distinct elements
lexicographically. -/
def sortedLanguages (langs : List String) : List String :=
  List.insertionSort pyStrLe langs.dedup

/-- Locale-list projection of `create_dataframe` (both versions): with an
allow-list, keep its order and drop tags not discovered; otherwise sort the
discovered set and move `"default"` to the front when present. -/
def selectLanguages (supported : Option (List String)) (discovered : List String) :
    List String :=
  match supported with
  | some sup => sup.filter (fun lang => decide (lang ∈ discovered))
  | none =>
    let ls := sortedLanguages discovered
    if "default" ∈ ls then "default" :: ls.erase "default" else ls

/-- One pass of `re.sub(r'-r([A-Z]{2})', r'-\1', s)`: rewrite every
`-rXX` (two capitals) to `-XX`, scanning left to right. -/
def subRegionMarker : List Char → List Char
  | '-' :: 'r' :: a :: b :: rest =>
    if ('A' ≤ a && a ≤ 'Z') && ('A' ≤ b && b ≤ 'Z') then
      '-' :: a :: b :: subRegionMarker rest
    else
      '-' :: subRegionMarker ('r' :: a :: b :: rest)
  | c :: cs => c :: subRegionMarker cs
  | [] => []

/-- `APKStringExtractor._extract_language_code` (identical in both source
files): `"values"` maps to `"default"`, otherwise the `values-` prefix is
removed and the `-rXX` region marker rewritten. -/
def extract_language_code (valuesDirName : String) : String :=
  if valuesDirName = "values" then "default"
  else
    let langPart := replaceAll "values-".data [] valuesDirName.data
    String.mk (subRegionMarker langPart)

mutual
/-- An `xml.etree.ElementTree` element: tag, attributes, direct text,
children, tail text. -/
inductive XmlElem where
  | mk (tag : String) (attrs : List (String × String)) (text : Option String)
       (children : XmlList) (tail : Option String)
inductive XmlList where
  | nil
  | cons (head : XmlElem) (tl : XmlList)
end

def XmlElem.tag : XmlElem → String
  | .mk t _ _ _ _ => t

def XmlElem.attrs : XmlElem → List (String × String)
  | .mk _ a _ _ _ => a

def XmlElem.tailText : XmlElem → Option String
  | .mk _ _ _ _ tl => tl

/-- `element.get(key)` on attributes. -/
def XmlElem.attr (e : XmlElem) (k : String) : Option String :=
  (e.attrs.find? (fun p => p.1 == k)).map Prod.snd

def XmlList.toList : XmlList → List XmlElem
  | .nil => []
  | .cons e rest => e :: rest.toList

mutual
/-- `APKStringExtractor._extract_element_text` (identical in both source
files): the element's direct text, then recursively each child's text
followed by that child's tail text, concatenated in document order. -/
def extract_element_text : XmlElem → String
  | .mk _ _ t cs _ => t.getD "" ++ extractChildrenText cs
def extractChildrenText : XmlList → String
  | .nil => ""
  | .cons c rest =>
    extract_element_text c ++ (c.tailText).getD "" ++ extractChildrenText rest
end

/-- A locale's `strings.xml` as read from disk: its raw bytes, plus the
element tree the external `ElementTree` library returns on the direct
`ET.parse` attempt and on the retry after control-character cleaning
(`none` models a `ParseError`).  The library itself is an external
collaborator; only its observed outcome enters the pipeline. -/
structure RawFile where
  content : List Nat
  etParse : Option XmlElem
  etCleanParse : Option XmlElem

/-- Binary-format magic-byte test of `_try_parse_binary_xml` (simple
version): the file starts with `03 00 08 00` or `02 00 0C 00`. -/
def startsBinaryMagic (content : List Nat) : Bool :=
  listStartsWith [3, 0, 8, 0] content || listStartsWith [2, 0, 12, 0] content

/-- `APKStringExtractor._try_parse_binary_xml` (simple version): a file with
the binary magic prefix is rejected outright; otherwise the direct parse is
used, falling back to the cleaned re-parse. -/
def try_parse_binary_xml (f : RawFile) : Option XmlElem :=
  if startsBinaryMagic f.content then none
  else
    match f.etParse with
    | some root => some root
    | none => f.etCleanParse

/-- `APKStringExtractor.parse_strings_xml` (simple version): on a parse
failure the map is empty; otherwise every direct `string` child with a
non-empty `name` attribute contributes its unescaped text. -/
def parse_strings_xml (f : RawFile) : List (String × String) :=
  match try_parse_binary_xml f with
  | none => []
  | some root =>
    match root with
    | .mk _ _ _ children _ =>
      (children.toList.filter (fun e => e.tag == "string")).foldl
        (fun strings e =>
          match e.attr "name" with
          | some name =>
            if name ≠ "" then
              assocSet strings name (unescape_xml (extract_element_text e))
            else strings
          | none => strings)
        []

/-- `strings_data`: StringKey to (LocaleTag to text), as nested dicts. -/
abbrev Table := List (String × List (String × String))

/-- Lookup of a key's locale map, `{}` when the key is absent. -/
def tblGet (tbl : Table) (k : String) : List (String × String) :=
  ((tbl.find? (fun p => p.1 == k)).map Prod.snd).getD []

/-- Python `tbl[k] = m`: replace the binding or append it. -/
def tblSet (tbl : Table) (k : String) (m : List (String × String)) : Table :=
  match tbl with
  | [] => [(k, m)]
  | (k', m') :: rest => if k' = k then (k, m) :: rest else (k', m') :: tblSet rest k m

/-- The accumulation step shared by `_extract_strings_from_xml` (local
version) and `extract_all_strings` (simple version):
`if key not in all_strings: all_strings[key] = {}` followed by
`all_strings[key][lang_code] = value`. -/
def insertTranslation (tbl : Table) (k lang v : String) : Table :=
  match tbl with
  | [] => [(k, [(lang, v)])]
  | (k', m) :: rest =>
    if k' = k then (k, assocSet m lang v) :: rest
    else (k', m) :: insertTranslation rest k lang v

/-- `self.languages.add(lang)`: sets are modelled as duplicate-free lists. -/
def addLanguage (langs : List String) (lang : String) : List String :=
  if lang ∈ langs then langs else langs ++ [lang]

/-- Mutable state of one extraction run: `all_strings` and `self.languages`. -/
structure RunState where
  table : Table
  languages : List String

/-- One iteration of the per-file loop of `extract_all_strings` (simple
version): parse the file, record its locale tag, then fold the parsed
entries into the table.  The tag is recorded whether or not parsing
succeeded. -/
def processStringFile (st : RunState) (p : RawFile × String) : RunState :=
  let strings := parse_strings_xml p.1
  let langs := addLanguage st.languages p.2
  let tbl := strings.foldl (fun t kv => insertTranslation t kv.1 p.2 kv.2) st.table
  ⟨tbl, langs⟩

/-- `APKStringExtractor.extract_all_strings` (simple version), applied to the
discovered `(strings.xml, locale)` pairs in directory-scan order. -/
def extract_all_strings (files : List (RawFile × String)) : RunState :=
  files.foldl processStringFile ⟨[], []⟩

/-- State of the `_parse_aapt2_resources_output` line loop (local version). -/
structure A2State where
  stringsData : Table
  currentName : Option String
  currentData : List (String × String)
  inStringSection : Bool
  languages : List String

/-- The guarded flush `if current_string_name and current_string_data:
strings_data[current_string_name] = current_string_data`. -/
def a2Flush (st : A2State) : A2State :=
  match st.currentName with
  | some n =>
    if st.currentData ≠ [] then
      { st with stringsData := tblSet st.stringsData n st.currentData }
    else st
  | none => st

/-- `re.search(r'string/([^\s]+)', line)`: first position where `string/` is
followed by at least one non-whitespace character; returns the capture. -/
def searchStringNameAux : Nat → List Char → Option (List Char)
  | 0, _ => none
  | _ + 1, [] => none
  | fuel + 1, c :: cs =>
    if listStartsWith "string/".data (c :: cs) then
      let tok := ((c :: cs).drop 7).takeWhile (fun ch => !(isPySpace ch))
      if tok ≠ [] then some tok else searchStringNameAux fuel cs
    else searchStringNameAux fuel cs

def searchStringName (l : List Char) : Option (List Char) :=
  searchStringNameAux l.length l

/-- `re.match(r'\s*\(([^)]*)\)\s*"([^"]*)"', line)`: leading whitespace, a
parenthesised locale, whitespace, then a quoted value. -/
def matchValueLine (l : List Char) : Option (List Char × List Char) :=
  match l.dropWhile isPySpace with
  | '(' :: r =>
    let lang := r.takeWhile (fun c => c ≠ ')')
    match r.dropWhile (fun c => c ≠ ')') with
    | ')' :: r2 =>
      match r2.dropWhile isPySpace with
      | '"' :: r3 =>
        let v := r3.takeWhile (fun c => c ≠ '"')
        match r3.dropWhile (fun c => c ≠ '"') with
        | '"' :: _ => some (lang, v)
        | _ => none
      | _ => none
    | _ => none
  | _ => none

/-- One iteration of the line loop of `_parse_aapt2_resources_output`
(local version). -/
def a2ProcessLine (st : A2State) (rawLine : List Char) : A2State :=
  let line := pyStrip rawLine
  if containsSub "type string".data line then
    { st with inStringSection := true }
  else if st.inStringSection && listStartsWith "type ".data line &&
      !(containsSub "string".data line) then
    { st with inStringSection := false }
  else if !st.inStringSection then st
  else if listStartsWith "resource ".data line && containsSub "string/".data line then
    let st' := a2Flush st
    match searchStringName line with
    | some tok => { st' with currentName := some (String.mk tok), currentData := [] }
    | none => st'
  else if st.currentName.isSome && containsSub ['"'] line then
    match matchValueLine line with
    | some (langRaw, v) =>
      let lang := if langRaw = [] then "default" else String.mk langRaw
      { st with currentData := assocSet st.currentData lang (String.mk v),
                languages := addLanguage st.languages lang }
    | none => st
  else st

/-- Python `output.split(chr(10))`. -/
def splitOnNl : List Char → List (List Char)
  | [] => [[]]
  | '\n' :: cs => [] :: splitOnNl cs
  | c :: cs =>
    match splitOnNl cs with
    | [] => [[c]]
    | h :: t => (c :: h) :: t

/-- `APKStringExtractor._parse_aapt2_resources_output` (local version):
fold the line machine over the tool output, with a final flush. -/
def parse_aapt2_resources_output (output : String) : Table :=
  (a2Flush ((splitOnNl output.data).foldl a2ProcessLine ⟨[], none, [], false, []⟩)).stringsData

/-- ResourceTable well-formedness: no key is bound to an empty locale map. -/
abbrev TableWF (tbl : Table) : Prop := ∀ p ∈ tbl, p.2 ≠ []

/-- The assembled table has no cell for locale `lang`: every key's locale
map gives the empty default at `lang`. -/
def EntriesNoLang (lang : String) (tbl : Table) : Prop :=
  ∀ p ∈ tbl, assocGet p.2 lang = ""

/-- Document-order placeholder extraction, the order the claim contrasts
with: at each position the numbered pattern is tried, then the simple
pattern, so matches are emitted as they occur in the text.  This follows
the claim's words and exists only to be compared with the source's
`extract_placeholders`. -/
def docOrderScanAux : Nat → List Char → List (List Char)
  | 0, _ => []
  | _ + 1, [] => []
  | fuel + 1, c :: cs =>
    match matchNumbered (c :: cs) with
    | some (tok, rest) => tok :: docOrderScanAux fuel rest
    | none =>
      match matchSimple (c :: cs) with
      | some (tok, rest) => tok :: docOrderScanAux fuel rest
      | none => docOrderScanAux fuel cs

def docOrderExtract (text : String) : List (List Char) :=
  docOrderScanAux text.data.length text.data

/-- Concrete scenario for the binary-XML claim: a textual default-locale
file with one entry. -/
def greetElem : XmlElem := .mk "string" [("name", "greet")] (some "Hi %s") .nil none

def defaultRoot : XmlElem := .mk "resources" [] none (.cons greetElem .nil) none

def defaultFile : RawFile := ⟨[60, 63], some defaultRoot, none⟩

/-- Concrete scenario for the binary-XML claim: a `values-de/strings.xml`
whose bytes start with the binary magic `03 00 08 00`, so both `ElementTree`
outcomes are irrelevant. -/
def deBinaryFile : RawFile := ⟨[3, 0, 8, 0, 1, 2], none, none⟩

def c2Files : List (RawFile × String) := [(defaultFile, "default"), (deBinaryFile, "de")]

theorem charListLe_total : ∀ x y : List Char, charListLe x y = true ∨ charListLe y x = true
  | [], _ => Or.inl rfl
  | _ :: _, [] => Or.inr rfl
  | a :: as, b :: bs => by
    by_cases hab : a = b
    · subst hab
      simpa [charListLe] using charListLe_total as bs
    · rcases lt_or_gt_of_ne hab with h | h
      · left
        simp [charListLe, hab, h]
      · right
        simp [charListLe, Ne.symm hab, h]

theorem charListLe_trans :
    ∀ x y z : List Char, charListLe x y = true → charListLe y z = true → charListLe x z = true
  | [], _, _ => by intro _ _; rfl
  | _ :: _, [], _ => by intro h _; simp [charListLe] at h
  | _ :: _, _ :: _, [] => by intro _ h; simp [charListLe] at h
  | a :: as, b :: bs, c :: cs => by
    intro h1 h2
    by_cases hab : a = b <;> by_cases hbc : b = c
    · subst hab; subst hbc
      simp only [charListLe, if_pos rfl] at h1 h2 ⊢
      exact charListLe_trans as bs cs h1 h2
    · subst hab
      simp only [charListLe, if_pos rfl, if_neg hbc] at h2
      simp [charListLe, hbc, of_decide_eq_true h2]
    · subst hbc
      simp only [charListLe, if_pos rfl, if_neg hab] at h1
      simp [charListLe, hab, of_decide_eq_true h1]
    · simp only [charListLe, if_neg hab] at h1
      simp only [charListLe, if_neg hbc] at h2
      have hac : a < c := lt_trans (of_decide_eq_true h1) (of_decide_eq_true h2)
      simp [charListLe, ne_of_lt hac, hac]

instance : IsTotal String pyStrLe :=
  ⟨fun a b => charListLe_total a.data b.data⟩

instance : IsTrans String pyStrLe :=
  ⟨fun a b c => charListLe_trans a.data b.data c.data⟩

theorem sortedLanguages_sorted (l : List String) : List.Sorted pyStrLe (sortedLanguages l) :=
  List.sorted_insertionSort _ _

theorem sortedLanguages_perm (l : List String) : (sortedLanguages l).Perm l.dedup :=
  List.perm_insertionSort _ _

theorem mem_sortedLanguages {x : String} {l : List String} :
    x ∈ sortedLanguages l ↔ x ∈ l := by
  rw [(sortedLanguages_perm l).mem_iff, List.mem_dedup]

theorem sortedLanguages_nodup (l : List String) : (sortedLanguages l).Nodup :=
  ((sortedLanguages_perm l).nodup_iff).mpr l.nodup_dedup

theorem selectLanguages_none_perm (disc : List String) :
    (selectLanguages none disc).Perm disc.dedup := by
  unfold selectLanguages
  by_cases h : "default" ∈ sortedLanguages disc
  · simp only [if_pos h]
    exact (List.perm_cons_erase h).symm.trans (sortedLanguages_perm disc)
  · simp only [if_neg h]
    exact sortedLanguages_perm disc

theorem mem_selectLanguages_none {x : String} {disc : List String} :
    x ∈ selectLanguages none disc ↔ x ∈ disc := by
  rw [(selectLanguages_none_perm disc).mem_iff, List.mem_dedup]

theorem selectLanguages_some_sublist (sup disc : List String) :
    (selectLanguages (some sup) disc).Sublist sup :=
  List.filter_sublist _

theorem mem_selectLanguages_some {x : String} {sup disc : List String} :
    x ∈ selectLanguages (some sup) disc ↔ (x ∈ sup ∧ x ∈ disc) := by
  simp [selectLanguages, List.mem_filter]

theorem assocGet_nil (k : String) : assocGet [] k = "" := rfl

theorem anomaly_cons_eq (translations : List (String × String)) (l0 : String)
    (rest : List String) :
    getPlaceholderAnomalyLanguages translations (l0 :: rest) =
      if assocGet translations l0 = "" then []
      else
        rest.filter (fun l =>
          (assocGet translations l != "") &&
          !(comparePlaceholders (assocGet translations l0) (assocGet translations l))) := by
  unfold getPlaceholderAnomalyLanguages
  by_cases ht : translations = []
  · subst ht
    simp [assocGet_nil]
  · by_cases hr : rest = []
    · subst hr
      simp [ht]
    · have hlen : ¬((l0 :: rest).length ≤ 1) := by
        cases rest with
        | nil => exact absurd rfl hr
        | cons a as => simp [List.length_cons]
      simp only [ht, hlen, or_self, if_false, false_or]

theorem missingCount_foldl (translations : List (String × String)) :
    ∀ (languages : List String) (acc : Nat),
      languages.foldl
        (fun acc lang => if assocGet translations lang = "" then acc + 1 else acc) acc =
        acc + (languages.filter (fun l => assocGet translations l == "")).length
  | [], acc => by simp
  | l :: ls, acc => by
    by_cases h : assocGet translations l = ""
    · have hb : (assocGet translations l == "") = true := beq_iff_eq.mpr h
      rw [List.foldl_cons, if_pos h, missingCount_foldl translations ls (acc + 1)]
      simp only [List.filter_cons, hb, if_true, List.length_cons]
      omega
    · have hb : (assocGet translations l == "") = false := beq_eq_false_iff_ne.mpr h
      rw [List.foldl_cons, if_neg h, missingCount_foldl translations ls acc]
      simp only [List.filter_cons, hb, Bool.false_eq_true, if_false]

theorem filter_length_split {α : Type} (p : α → Bool) :
    ∀ l : List α, (l.filter p).length + (l.filter (fun a => !(p a))).length = l.length
  | [] => rfl
  | a :: as => by
    have ih := filter_length_split p as
    cases h : p a with
    | true =>
      simp only [List.filter_cons, h, Bool.not_true, Bool.false_eq_true, if_true, if_false,
        List.length_cons]
      omega
    | false =>
      simp only [List.filter_cons, h, Bool.not_false, Bool.false_eq_true, if_true, if_false,
        List.length_cons]
      omega

theorem assocSet_ne_nil (m : List (String × String)) (k v : String) :
    assocSet m k v ≠ [] := by
  cases m with
  | nil => simp [assocSet]
  | cons h t =>
    simp only [assocSet]
    split <;> simp

theorem insertTranslation_wf :
    ∀ (tbl : Table) (k lang v : String), TableWF tbl → TableWF (insertTranslation tbl k lang v)
  | [], k, lang, v, _ => by
    intro p hp
    simp only [insertTranslation, List.mem_singleton] at hp
    subst hp
    simp
  | (k', m) :: rest, k, lang, v, hwf => by
    intro p hp
    simp only [insertTranslation] at hp
    split at hp
    · rcases List.mem_cons.mp hp with h | h
      · subst h
        exact assocSet_ne_nil m lang v
      · exact hwf p (List.mem_cons_of_mem _ h)
    · rcases List.mem_cons.mp hp with h | h
      · subst h
        exact hwf (k', m) (List.mem_cons_self _ _)
      · exact insertTranslation_wf rest k lang v
          (fun q hq => hwf q (List.mem_cons_of_mem _ hq)) p h

theorem tblSet_wf :
    ∀ (tbl : Table) (k : String) (m : List (String × String)),
      m ≠ [] → TableWF tbl → TableWF (tblSet tbl k m)
  | [], k, m, hm, _ => by
    intro p hp
    simp only [tblSet, List.mem_singleton] at hp
    subst hp
    exact hm
  | (k', m') :: rest, k, m, hm, hwf => by
    intro p hp
    simp only [tblSet] at hp
    split at hp
    · rcases List.mem_cons.mp hp with h | h
      · subst h; exact hm
      · exact hwf p (List.mem_cons_of_mem _ h)
    · rcases List.mem_cons.mp hp with h | h
      · subst h
        exact hwf (k', m') (List.mem_cons_self _ _)
      · exact tblSet_wf rest k m hm
          (fun q hq => hwf q (List.mem_cons_of_mem _ hq)) p h

theorem foldl_insertTranslation_wf (lang : String) :
    ∀ (kvs : List (String × String)) (tbl : Table), TableWF tbl →
      TableWF (kvs.foldl (fun t kv => insertTranslation t kv.1 lang kv.2) tbl)
  | [], tbl, hwf => hwf
  | kv :: kvs, tbl, hwf =>
    foldl_insertTranslation_wf lang kvs _ (insertTranslation_wf tbl kv.1 lang kv.2 hwf)

theorem processStringFile_wf (st : RunState) (p : RawFile × String) :
    TableWF st.table → TableWF (processStringFile st p).table := by
  intro hwf
  exact foldl_insertTranslation_wf p.2 (parse_strings_xml p.1) st.table hwf

theorem foldl_processStringFile_wf :
    ∀ (files : List (RawFile × String)) (st : RunState), TableWF st.table →
      TableWF ((files.foldl processStringFile st).table)
  | [], st, hwf => hwf
  | p :: files, st, hwf =>
    foldl_processStringFile_wf files _ (processStringFile_wf st p hwf)

theorem a2Flush_wf (st : A2State) :
    TableWF st.stringsData → TableWF (a2Flush st).stringsData := by
  intro hwf
  unfold a2Flush
  split
  · split
    · exact tblSet_wf _ _ _ (by assumption) hwf
    · exact hwf
  · exact hwf

theorem a2ProcessLine_wf (st : A2State) (line : List Char) :
    TableWF st.stringsData → TableWF (a2ProcessLine st line).stringsData := by
  intro hwf
  have hflush : TableWF (a2Flush st).stringsData := a2Flush_wf st hwf
  simp only [a2ProcessLine]
  repeat' split
  all_goals first | exact hwf | exact hflush

theorem foldl_a2ProcessLine_wf :
    ∀ (lines : List (List Char)) (st : A2State), TableWF st.stringsData →
      TableWF ((lines.foldl a2ProcessLine st).stringsData)
  | [], st, hwf => hwf
  | l :: ls, st, hwf =>
    foldl_a2ProcessLine_wf ls _ (a2ProcessLine_wf st l hwf)

theorem parse_aapt2_resources_output_wf (output : String) :
    TableWF (parse_aapt2_resources_output output) := by
  unfold parse_aapt2_resources_output
  exact a2Flush_wf _ (foldl_a2ProcessLine_wf _ _ (fun p hp => absurd hp (List.not_mem_nil p)))

theorem assocGet_cons (k' v' : String) (m : List (String × String)) (lang : String) :
    assocGet ((k', v') :: m) lang = if k' = lang then v' else assocGet m lang := by
  by_cases h : k' = lang
  · simp [assocGet, List.find?, h]
  · simp [assocGet, List.find?, beq_eq_false_iff_ne.mpr h, h]

theorem assocGet_assocSet_of_ne (lang : String) :
    ∀ (m : List (String × String)) (k v : String), k ≠ lang →
      assocGet (assocSet m k v) lang = assocGet m lang
  | [], k, v, h => by
    simp [assocSet, assocGet_cons, h, assocGet_nil]
  | (k', v') :: rest, k, v, h => by
    simp only [assocSet]
    split
    · rename_i hk
      subst hk
      rw [assocGet_cons, assocGet_cons]
      simp [h]
    · rw [assocGet_cons, assocGet_cons]
      by_cases hkl : k' = lang
      · simp [hkl]
      · simp [hkl, assocGet_assocSet_of_ne lang rest k v h]

theorem entriesNoLang_cell {lang : String} {tbl : Table}
    (h : EntriesNoLang lang tbl) (k : String) :
    assocGet (tblGet tbl k) lang = "" := by
  unfold tblGet
  cases hf : tbl.find? (fun p => p.1 == k) with
  | none => simp [assocGet_nil]
  | some p =>
    simpa using h p (List.mem_of_find?_eq_some hf)

theorem insertTranslation_entriesNoLang (lang : String) :
    ∀ (tbl : Table) (k l' v : String), l' ≠ lang → EntriesNoLang lang tbl →
      EntriesNoLang lang (insertTranslation tbl k l' v)
  | [], k, l', v, hne, _ => by
    intro p hp
    simp only [insertTranslation, List.mem_singleton] at hp
    subst hp
    simp [assocGet_cons, hne, assocGet_nil]
  | (k', m) :: rest, k, l', v, hne, hno => by
    intro p hp
    simp only [insertTranslation] at hp
    split at hp
    · rcases List.mem_cons.mp hp with h | h
      · subst h
        rw [assocGet_assocSet_of_ne lang m l' v hne]
        exact hno (k', m) (List.mem_cons_self _ _)
      · exact hno p (List.mem_cons_of_mem _ h)
    · rcases List.mem_cons.mp hp with h | h
      · subst h
        exact hno (k', m) (List.mem_cons_self _ _)
      · exact insertTranslation_entriesNoLang lang rest k l' v hne
          (fun q hq => hno q (List.mem_cons_of_mem _ hq)) p h

theorem foldl_kvs_entriesNoLang (lang l' : String) (hne : l' ≠ lang) :
    ∀ (kvs : List (String × String)) (tbl : Table), EntriesNoLang lang tbl →
      EntriesNoLang lang (kvs.foldl (fun t kv => insertTranslation t kv.1 l' kv.2) tbl)
  | [], _, hno => hno
  | kv :: kvs, tbl, hno =>
    foldl_kvs_entriesNoLang lang l' hne kvs _
      (insertTranslation_entriesNoLang lang tbl kv.1 l' kv.2 hne hno)

theorem foldl_files_entriesNoLang (lang : String) :
    ∀ (files : List (RawFile × String)) (st : RunState),
      (∀ p ∈ files, p.2 ≠ lang) → EntriesNoLang lang st.table →
      EntriesNoLang lang ((files.foldl processStringFile st).table)
  | [], _, _, hno => hno
  | p :: files, st, hfiles, hno =>
    foldl_files_entriesNoLang lang files _
      (fun q hq => hfiles q (List.mem_cons_of_mem _ hq))
      (foldl_kvs_entriesNoLang lang p.2 (hfiles p (List.mem_cons_self _ _)) _ _ hno)

theorem mem_addLanguage_self (langs : List String) (lang : String) :
    lang ∈ addLanguage langs lang := by
  unfold addLanguage
  split
  · assumption
  · exact List.mem_append_right _ (List.mem_singleton_self _)

theorem parse_strings_xml_binary {f : RawFile} (h : startsBinaryMagic f.content = true) :
    parse_strings_xml f = [] := by
  simp [parse_strings_xml, try_parse_binary_xml, h]

/-- C1: the unescaper does apply the escapes in the stated fixed order with
backslash-collapsing last, but on the three-character input
backslash-backslash-n the `\n` rule consumes the second backslash first, so
the code yields backslash+newline (trimmed to a lone backslash at the edges
of the string) — not backslash followed by the letter n as the claim states.
Conjuncts: `\n` does decode mid-string; the code's value on the failing
input `\\n`, bare and mid-string; and that value differs from the claimed
backslash+n. -/
theorem c1_unescape_order_eval :
    unescape_xml (String.mk ['a', '\\', 'n', 'b']) = String.mk ['a', '\n', 'b'] ∧
    unescape_xml (String.mk ['\\', '\\', 'n']) = String.mk ['\\'] ∧
    unescape_xml (String.mk ['a', '\\', '\\', 'n', 'b']) = String.mk ['a', '\\', '\n', 'b'] ∧
    unescape_xml (String.mk ['\\', '\\', 'n']) ≠ String.mk ['\\', 'n'] := by
  decide

/-- C2 counterexample: `values-de/strings.xml` is binary-encoded (magic
prefix present), only raw-XML parsing is available, no allow-list is
supplied — yet `de` does appear in the projected locale list, refuting the
claim that it would not appear unless allow-listed. -/
theorem c2_counterexample :
    startsBinaryMagic deBinaryFile.content = true ∧
    parse_strings_xml deBinaryFile = [] ∧
    selectLanguages none (extract_all_strings c2Files).languages = ["default", "de"] ∧
    "de" ∈ selectLanguages none (extract_all_strings c2Files).languages := by
  exact ⟨by decide, by decide, by decide, by decide⟩

/-- C2 (amended): a binary-encoded locale file parses to nothing (skipped
with a parse-failure warning), and the locale contributes only missing
(empty) text for every key; however its tag is recorded at discovery time,
so it appears as a projected locale even without an allow-list, and with an
allow-list it appears iff listed. -/
theorem c2_amended (others : List (RawFile × String)) (f : RawFile) (lang : String)
    (hbin : startsBinaryMagic f.content = true)
    (hothers : ∀ p ∈ others, p.2 ≠ lang) :
    parse_strings_xml f = [] ∧
    lang ∈ (extract_all_strings (others ++ [(f, lang)])).languages ∧
    (∀ k, assocGet (tblGet (extract_all_strings (others ++ [(f, lang)])).table k) lang = "") ∧
    lang ∈ selectLanguages none (extract_all_strings (others ++ [(f, lang)])).languages ∧
    (∀ sup, lang ∈ selectLanguages (some sup)
      (extract_all_strings (others ++ [(f, lang)])).languages ↔ lang ∈ sup) := by
  have hparse := parse_strings_xml_binary hbin
  have hrun : extract_all_strings (others ++ [(f, lang)]) =
      processStringFile (extract_all_strings others) (f, lang) := by
    unfold extract_all_strings
    rw [List.foldl_append]
    rfl
  have hlangmem : lang ∈ (extract_all_strings (others ++ [(f, lang)])).languages := by
    rw [hrun]
    exact mem_addLanguage_self _ _
  have htbl : (processStringFile (extract_all_strings others) (f, lang)).table =
      (extract_all_strings others).table := by
    simp [processStringFile, hparse]
  have hno : EntriesNoLang lang (extract_all_strings (others ++ [(f, lang)])).table := by
    rw [hrun, htbl]
    exact foldl_files_entriesNoLang lang others ⟨[], []⟩ hothers
      (fun p hp => absurd hp (List.not_mem_nil p))
  refine ⟨hparse, hlangmem, fun k => entriesNoLang_cell hno k,
    mem_selectLanguages_none.mpr hlangmem, fun sup => ?_⟩
  rw [mem_selectLanguages_some]
  exact ⟨fun h => h.1, fun h => ⟨h, hlangmem⟩⟩

/-- C2 witness: the amended claim instantiated on the concrete scenario
(default locale textual, `de` binary, allow-list `default,de`). -/
theorem c2_amended_witness :
    parse_strings_xml deBinaryFile = [] ∧
    "de" ∈ selectLanguages none (extract_all_strings c2Files).languages ∧
    ("de" ∈ selectLanguages (some ["default", "de"])
      (extract_all_strings c2Files).languages ↔ "de" ∈ (["default", "de"] : List String)) := by
  have h := c2_amended [(defaultFile, "default")] deBinaryFile "de" (by decide) (by decide)
  exact ⟨h.1, h.2.2.2.1, h.2.2.2.2 ["default", "de"]⟩

/-- C3: the placeholder comparator returns true iff both texts are empty
identically, or both are non-empty and the multisets of placeholder type
letters agree; with the claim's two concrete examples. -/
theorem c3_compare_iff :
    (∀ defaultText otherText : String,
      comparePlaceholders defaultText otherText = true ↔
        ((defaultText = "" ∧ otherText = "") ∨
         (defaultText ≠ "" ∧ otherText ≠ "" ∧
           (↑(normalize_to_types (extract_placeholders defaultText)) : Multiset Char) =
             ↑(normalize_to_types (extract_placeholders otherText))))) ∧
    comparePlaceholders "Hello %1$s, you have %2$d" "%2$d için %1$s merhaba" = true ∧
    comparePlaceholders "Hello %s" "Merhaba %d" = false := by
  refine ⟨fun dt ot => ?_, by decide, by decide⟩
  unfold comparePlaceholders
  by_cases hd : dt = ""
  · subst hd
    by_cases ho : ot = ""
    · subst ho
      simp
    · simp [ho, Ne.symm ho]
  · by_cases ho : ot = ""
    · subst ho
      simp [hd]
    · simp [hd, ho]

/-- C4: with the default locale first in the list, a non-default locale is
in the anomaly set iff its text is non-empty and the comparison against the
default locale's text fails; and an empty default text yields an empty
anomaly set. -/
theorem c4_anomaly_membership (translations : List (String × String)) (defaultLang : String)
    (rest : List String) :
    (assocGet translations defaultLang = "" →
      getPlaceholderAnomalyLanguages translations (defaultLang :: rest) = []) ∧
    (assocGet translations defaultLang ≠ "" →
      ∀ l, l ∈ getPlaceholderAnomalyLanguages translations (defaultLang :: rest) ↔
        (l ∈ rest ∧ assocGet translations l ≠ "" ∧
          comparePlaceholders (assocGet translations defaultLang)
            (assocGet translations l) = false)) := by
  constructor
  · intro h
    rw [anomaly_cons_eq, if_pos h]
  · intro h l
    rw [anomaly_cons_eq, if_neg h, List.mem_filter]
    simp only [Bool.and_eq_true, bne_iff_ne, Bool.not_eq_true', and_assoc]

/-- C4 witness: the membership characterization applied to a concrete map
with a type mismatch in `fr`. -/
theorem c4_anomaly_membership_witness :
    "fr" ∈ getPlaceholderAnomalyLanguages
      [("default", "Hello %s"), ("fr", "Bonjour %d")] ["default", "fr"] := by
  have h := (c4_anomaly_membership [("default", "Hello %s"), ("fr", "Bonjour %d")]
    "default" ["fr"]).2 (by decide) "fr"
  exact h.mpr ⟨by decide, by decide, by decide⟩

/-- C5: with an allow-list the projection is the allow-list filtered to
discovered locales, preserving its order; without one it is the discovered
set sorted lexicographically with `default` moved to the front when
present. -/
theorem c5_projection (sup disc : List String) :
    (selectLanguages (some sup) disc).Sublist sup ∧
    (∀ l, l ∈ selectLanguages (some sup) disc ↔ (l ∈ sup ∧ l ∈ disc)) ∧
    (selectLanguages none disc).Perm disc.dedup ∧
    ("default" ∈ disc →
      selectLanguages none disc = "default" :: (sortedLanguages disc).erase "default" ∧
      List.Sorted pyStrLe ((sortedLanguages disc).erase "default") ∧
      "default" ∉ (sortedLanguages disc).erase "default") ∧
    ("default" ∉ disc →
      selectLanguages none disc = sortedLanguages disc ∧
      List.Sorted pyStrLe (selectLanguages none disc)) := by
  refine ⟨selectLanguages_some_sublist sup disc, fun l => mem_selectLanguages_some,
    selectLanguages_none_perm disc, fun hmem => ?_, fun hnot => ?_⟩
  · have hs : "default" ∈ sortedLanguages disc := mem_sortedLanguages.mpr hmem
    refine ⟨by simp [selectLanguages, hs], ?_, ?_⟩
    · exact (sortedLanguages_sorted disc).sublist (List.erase_sublist _ _)
    · intro hc
      exact ((List.Nodup.mem_erase_iff (sortedLanguages_nodup disc)).mp hc).1 rfl
  · have hs : "default" ∉ sortedLanguages disc := fun hc => hnot (mem_sortedLanguages.mp hc)
    have heq : selectLanguages none disc = sortedLanguages disc := by
      simp [selectLanguages, hs]
    rw [heq]
    exact ⟨rfl, sortedLanguages_sorted disc⟩

/-- C5 witness: the projection properties at a concrete allow-list and
discovered set containing `default`. -/
theorem c5_projection_witness :
    (selectLanguages (some ["fr", "de"]) ["de", "default", "ar"]).Sublist ["fr", "de"] ∧
    ("de" ∈ selectLanguages (some ["fr", "de"]) ["de", "default", "ar"] ↔
      ("de" ∈ (["fr", "de"] : List String) ∧ "de" ∈ (["de", "default", "ar"] : List String))) ∧
    (selectLanguages none ["de", "default", "ar"]).Perm
      (["de", "default", "ar"] : List String).dedup ∧
    (selectLanguages none ["de", "default", "ar"] =
      "default" :: (sortedLanguages ["de", "default", "ar"]).erase "default" ∧
      List.Sorted pyStrLe ((sortedLanguages ["de", "default", "ar"]).erase "default") ∧
      "default" ∉ (sortedLanguages ["de", "default", "ar"]).erase "default") := by
  have h := c5_projection ["fr", "de"] ["de", "default", "ar"]
  exact ⟨h.1, h.2.1 "de", h.2.2.1, h.2.2.2.1 (by decide)⟩

/-- C6: the missing count of a row equals the number of projected locales
whose text is absent or empty, and its complement in the locale-list length
equals the number of locales with non-empty text. -/
theorem c6_missing_count (translations : List (String × String)) (languages : List String) :
    missingCountOf translations languages =
      (languages.filter (fun l => assocGet translations l == "")).length ∧
    languages.length - missingCountOf translations languages =
      (languages.filter (fun l => assocGet translations l != "")).length := by
  have h1 : missingCountOf translations languages =
      (languages.filter (fun l => assocGet translations l == "")).length := by
    unfold missingCountOf
    simpa using missingCount_foldl translations languages 0
  have h2 := filter_length_split (fun l => assocGet translations l == "") languages
  have h3 : (languages.filter (fun l => assocGet translations l != "")).length =
      (languages.filter (fun l => !(assocGet translations l == ""))).length := rfl
  refine ⟨h1, ?_⟩
  rw [h1, h3]
  omega

/-- C7: the locale-code normalizer (a pure function of the directory name)
maps `values` to `default`, `values-en-rUS` to `en-US`, and `values-zh` to
`zh`. -/
theorem c7_locale_normalizer :
    extract_language_code "values" = "default" ∧
    extract_language_code "values-en-rUS" = "en-US" ∧
    extract_language_code "values-zh" = "zh" := by
  decide

/-- C8: the resource table never holds a key with an empty locale map: the
fine-grained insert preserves the invariant, the XML accumulation path
establishes it from the empty table, and the aapt2 line parser's guarded
flush keeps it, so the parsed table satisfies it as well. -/
theorem c8_table_wf :
    (∀ (tbl : Table) (k lang v : String), TableWF tbl → TableWF (insertTranslation tbl k lang v)) ∧
    (∀ files : List (RawFile × String), TableWF (extract_all_strings files).table) ∧
    (∀ st : A2State, TableWF st.stringsData → TableWF (a2Flush st).stringsData) ∧
    (∀ output : String, TableWF (parse_aapt2_resources_output output)) := by
  refine ⟨insertTranslation_wf, fun files => ?_, a2Flush_wf, parse_aapt2_resources_output_wf⟩
  exact foldl_processStringFile_wf files ⟨[], []⟩ (fun p hp => absurd hp (List.not_mem_nil p))

/-- C8 witness: the invariant conjuncts applied at concrete tables, states
and output text. -/
theorem c8_table_wf_witness :
    TableWF (insertTranslation [("a", [("default", "x")])] "b" "fr" "y") ∧
    TableWF (extract_all_strings []).table ∧
    TableWF (a2Flush ⟨[], some "k", [("default", "v")], true, []⟩).stringsData ∧
    TableWF (parse_aapt2_resources_output "type string") :=
  ⟨c8_table_wf.1 _ "b" "fr" "y" (by decide), c8_table_wf.2.1 [],
   c8_table_wf.2.2.1 _ (by decide), c8_table_wf.2.2.2 "type string"⟩

/-- C9: the anomaly computation takes the first element of the given locale
list as the comparison baseline, whatever that element is; on a list whose
first entry is `fr` rather than `default`, the default locale itself is the
one flagged. -/
theorem c9_baseline_first :
    (∀ (translations : List (String × String)) (l0 : String) (rest : List String),
      getPlaceholderAnomalyLanguages translations (l0 :: rest) =
        if assocGet translations l0 = "" then []
        else
          rest.filter (fun l =>
            (assocGet translations l != "") &&
            !(comparePlaceholders (assocGet translations l0) (assocGet translations l)))) ∧
    getPlaceholderAnomalyLanguages [("default", "%s"), ("fr", "%d"), ("de", "%d")]
      ["fr", "de", "default"] = ["default"] :=
  ⟨anomaly_cons_eq, by decide⟩

/-- C10: placeholder extraction returns all numbered placeholders in
document order first, then all simple ones in document order, which is not
the overall document order when a simple placeholder precedes a numbered
one. -/
theorem c10_numbered_first :
    (∀ text : String, extract_placeholders text = scanNumbered text.data ++ scanSimple text.data) ∧
    extract_placeholders "Hi %s, total %1$d" = [['%', '1', '$', 'd'], ['%', 's']] ∧
    docOrderExtract "Hi %s, total %1$d" = [['%', 's'], ['%', '1', '$', 'd']] ∧
    extract_placeholders "Hi %s, total %1$d" ≠ docOrderExtract "Hi %s, total %1$d" := by
  refine ⟨fun text => ?_, by decide, by decide, by decide⟩
  by_cases h : text = ""
  · subst h
    rfl
  · simp [extract_placeholders, h]

end Apk
